import Mathlib

/-!
Verification of the Circular Dependency Detection Engine of the
monorepo-consistency tool.

The definitions below are a shallow embedding of the TypeScript source:

* `src/types/index.ts` — the data model (`SeverityLevel`, `PackageInfo`,
  `Issue`, `Stats`, `CheckResult`).
* `src/domains/circular/inter-package.ts` — `detectInterPackageCycles`,
  the three-color DFS over the workspace dependency graph.
* `src/domains/circular/index.ts` — `normalizeCycle`, `deduplicateCycles`,
  `isIgnoredCycle`, `isIgnoredPackageCycle`, `filterPackages`,
  `runIntraPackage` and the `check` entry point.

JavaScript collections are modelled as follows: a JS object (string-keyed
record) is a `List (String × String)` normalised by `objEntries`, which
implements object-literal insertion semantics (a key keeps its first
position, the last assigned value wins); `new Set(xs)` iterated in
insertion order is `insertionOrderDedup`; `Map.set`/`Map.get` keyed by
package name is realised by `adjOf` (the last `set` for a name wins, a
`get` of an unset key falls back to `[]`, mirroring `adj.get(node) ?? []`).
External effects are made explicit: the analyzer invocation
(`runDpdm`/`runMadge`) is a parameter `runner` returning `Except` (a JS
rejection is `Except.error`), glob matching (`minimatch`) is a parameter
`matchGlob`, and `logger.warn` calls and analyzer invocations are
returned as additional components by `runIntraPackageFull` (they are
write-only: the issue computation never reads them).

The recursive DFS is given fuel; `detectInterPackageCycles` supplies
`names.length` fuel, which is enough for the deepest possible recursion
(each nested call grays a fresh node out of `names`), so the fuel-out
branch is never taken there.  All invariant theorems below are proved for
every fuel value, so nothing depends on that adequacy.
-/

namespace MonorepoCircular

/-- `SeverityLevel` from `src/types/index.ts`:
`"low" | "medium" | "high" | "critical"`. -/
inductive SeverityLevel
  | low
  | medium
  | high
  | critical
deriving DecidableEq, Repr

/-- The two pluggable intra-package analyzers (`"dpdm" | "madge"`). -/
inductive Tool
  | dpdm
  | madge
deriving DecidableEq, Repr

/-- String form of a tool identifier, as interpolated into log messages. -/
def toolName : Tool → String
  | Tool.dpdm => "dpdm"
  | Tool.madge => "madge"

/-- `PackageInfo` from `src/types/index.ts` (the fields the circular
engine reads).  `dependencies`/`devDependencies` are JS objects; absent
maps are the empty list. -/
structure PackageInfo where
  name : String
  path : String
  dependencies : List (String × String) := []
  devDependencies : List (String × String) := []
deriving DecidableEq, Repr

/-- `Issue` from `src/types/index.ts`. -/
structure Issue where
  severity : SeverityLevel
  type : String
  package : Option String := none
  file : Option String := none
  message : String
  fix : Option String := none
deriving DecidableEq, Repr

/-- `Stats` from `src/types/index.ts`. -/
structure Stats where
  total : Nat
  critical : Nat
  high : Nat
  medium : Nat
  low : Nat
deriving DecidableEq, Repr

/-- `CheckResult` from `src/types/index.ts`. -/
structure CheckResult where
  success : Bool
  issues : List Issue
  stats : Stats
deriving DecidableEq, Repr

/-- A file-scoped ignore rule from the circular config
(`ignoreCycles` entries: glob pattern, optional package-scope glob). -/
structure IgnoreRule where
  pattern : String
  package : Option String := none
deriving DecidableEq, Repr

/-- `CircularConfig` from `src/config/schema`.  Every field is optional
(`config?.field` reads); the code supplies the documented defaults at
each use site. -/
structure CircularConfig where
  enabled : Option Bool := none
  intraPackage : Option Bool := none
  interPackage : Option Bool := none
  intraPackageSeverity : Option SeverityLevel := none
  interPackageSeverity : Option SeverityLevel := none
  tools : Option (List Tool) := none
  ignoreCycles : Option (List IgnoreRule) := none
  ignorePackageCycles : Option (List (List String)) := none
  includePackages : Option (List String) := none
  excludePackages : Option (List String) := none

/-- `CircularCheckOptions`: the command options the check reads.
Absent boolean flags are falsy, i.e. `false`. -/
structure CircularCheckOptions where
  intra : Bool := false
  inter : Bool := false
  all : Bool := false
  packages : Option (List String) := none
  tool : Option Tool := none

/-- The slice of `WorkspaceInfo` the circular engine reads. -/
structure WorkspaceInfo where
  packages : List PackageInfo

/-- JS `String.prototype.startsWith`: code-unit prefix test, modelled on
the character lists underlying Lean strings. -/
def strStartsWith (s pre : String) : Bool :=
  pre.data.isPrefixOf s.data

/-- Lexicographic order on character lists by code point. -/
def charListLt : List Char → List Char → Bool
  | [], [] => false
  | [], _ :: _ => true
  | _ :: _, [] => false
  | a :: as, b :: bs => if a < b then true else if b < a then false else charListLt as bs

/-- JS `<` on strings: lexicographic comparison of code units. -/
def strLt (a b : String) : Bool :=
  charListLt a.data b.data

/-- One key assignment on a JS object represented as an entry list:
an existing key keeps its position and gets the new value, a new key is
appended. -/
def objUpsert (m : List (String × String)) (k : String) (v : String) :
    List (String × String) :=
  if m.any (fun e => e.1 == k) then
    m.map (fun e => if e.1 == k then (k, v) else e)
  else
    m ++ [(k, v)]

/-- JS object-literal semantics for an entry list: `objEntries l` is the
entry list of the object built by assigning the pairs of `l` in order.
`{...a, ...b}` is `objEntries (a ++ b)`. -/
def objEntries (l : List (String × String)) : List (String × String) :=
  l.foldl (fun m e => objUpsert m e.1 e.2) []

/-- Insertion-order iteration of `new Set(xs)`: first occurrences, in
order. -/
def insertionOrderDedup (l : List String) : List String :=
  l.foldl (fun acc x => if x ∈ acc then acc else acc ++ [x]) []

/-- `nameSet` of `detectInterPackageCycles`: the set of workspace package
names, in insertion order. -/
def workspaceNames (packages : List PackageInfo) : List String :=
  insertionOrderDedup (packages.map (fun p => p.name))

/-- The neighbor list built for one package in `detectInterPackageCycles`:
entries of `{...pkg.dependencies, ...pkg.devDependencies}` whose version
starts with `workspace:` and whose key is a known workspace name. -/
def neighborsOf (names : List String) (pkg : PackageInfo) : List String :=
  (objEntries (pkg.dependencies ++ pkg.devDependencies)).filterMap
    (fun e => if strStartsWith e.2 "workspace:" && names.contains e.1 then some e.1 else none)

/-- The adjacency map `adj` as a lookup function: `adj.set(pkg.name, …)`
overwrites, so the last package with a given name wins; `adj.get(node)
?? []` yields `[]` for unset keys. -/
def adjOf (packages : List PackageInfo) (node : String) : List String :=
  match (packages.filter (fun p => p.name == node)).getLast? with
  | some pkg => neighborsOf (workspaceNames packages) pkg
  | none => []

/-- The three DFS colors (`WHITE = 0`, `GRAY = 1`, `BLACK = 2`). -/
inductive Color
  | white
  | gray
  | black
deriving DecidableEq, Repr

/-- The mutable state of the DFS in `detectInterPackageCycles`: the
`color` map, the traversal `path` stack and the collected `cycles`.
`order` is a ghost field recording the order in which nodes are grayed;
it is write-only (no branch of the algorithm reads it) and exists solely
for the invariance proofs. -/
structure DfsState where
  color : String → Color
  path : List String
  cycles : List (List String)
  order : List String

/-- The back-edge case of the DFS: `path.indexOf(neighbor)` and, if the
neighbor is on the path (`indexOf` is not `-1`), push
`path.slice(cycleStart)`. -/
def pushCycle (st : DfsState) (nb : String) : DfsState :=
  if nb ∈ st.path then
    { st with cycles := st.cycles ++ [st.path.drop (st.path.indexOf nb)] }
  else st

/-- The loop `for (const neighbor of adj.get(node) ?? [])` inside `dfs`:
a gray neighbor records a cycle, a white neighbor is visited recursively
(`visit`), a black neighbor is skipped. -/
def dfsStep (visit : String → DfsState → DfsState) :
    List String → DfsState → DfsState
  | [], st => st
  | nb :: rest, st =>
    let st' :=
      if st.color nb = Color.gray then pushCycle st nb
      else if st.color nb = Color.white then visit nb st
      else st
    dfsStep visit rest st'

/-- The recursive `dfs(node)`: mark gray and push, explore the neighbor
list, then pop and mark black.  Fuel bounds the recursion depth; the
caller supplies enough for the fuel-out branch to be unreachable. -/
def dfsVisit (adj : String → List String) : Nat → String → DfsState → DfsState
  | 0, _, st => st
  | f + 1, node, st =>
    let st1 : DfsState :=
      { st with color := Function.update st.color node Color.gray,
                path := st.path ++ [node],
                order := st.order ++ [node] }
    let st2 := dfsStep (fun nb s => dfsVisit adj f nb s) (adj node) st1
    { st2 with color := Function.update st2.color node Color.black,
               path := st2.path.dropLast }

/-- The initial DFS state: every node white, empty path and cycle list. -/
def dfsInit : DfsState :=
  { color := fun _ => Color.white, path := [], cycles := [], order := [] }

/-- `detectInterPackageCycles` from
`src/domains/circular/inter-package.ts`: build the workspace dependency
graph and run the three-color DFS from every still-white name. -/
def detectInterPackageCycles (packages : List PackageInfo) : List (List String) :=
  let names := workspaceNames packages
  (names.foldl
      (fun st name =>
        if st.color name = Color.white then dfsVisit (adjOf packages) names.length name st
        else st)
      dfsInit).cycles

/-- `Array.prototype.join(" -> ")`. -/
def joinArrow : List String → String
  | [] => ""
  | [a] => a
  | a :: b :: rest => a ++ " -> " ++ joinArrow (b :: rest)

/-- `normalizeCycle`: rotate the cycle so its lexicographically smallest
element (`reduce((a, b) => (a < b ? a : b))`, located with `indexOf`)
comes first, then join with `" -> "`. -/
def normalizeCycle (cycle : List String) : String :=
  match cycle with
  | [] => ""
  | a :: rest =>
    let m := rest.foldl (fun x y => if strLt x y then x else y) a
    let minIdx := cycle.indexOf m
    joinArrow (cycle.drop minIdx ++ cycle.take minIdx)

/-- `deduplicateCycles`: a `seen` set of normalized keys; a cycle is kept
(appended to the result) only if its key has not been seen. -/
def deduplicateCycles (cycles : List (List String)) : List (List String) :=
  (cycles.foldl
      (fun (acc : List String × List (List String)) cycle =>
        let key := normalizeCycle cycle
        if key ∈ acc.1 then acc else (key :: acc.1, acc.2 ++ [cycle]))
      ([], [])).2

/-- `filterPackages`: a non-empty CLI `--packages` list takes precedence
and replaces config include/exclude entirely; otherwise non-empty config
`includePackages` restrict, then non-empty `excludePackages` remove. -/
def filterPackages (matchGlob : String → String → Bool)
    (packages : List PackageInfo) (cliPackages : Option (List String))
    (config : Option CircularConfig) : List PackageInfo :=
  let cli := cliPackages.getD []
  if !cli.isEmpty then
    packages.filter (fun p => cli.any (fun pat => matchGlob p.name pat))
  else
    let includeGlobs := (config.bind (fun c => c.includePackages)).getD []
    let excludeGlobs := (config.bind (fun c => c.excludePackages)).getD []
    let f1 :=
      if includeGlobs.length > 0 then
        packages.filter (fun p => includeGlobs.any (fun pat => matchGlob p.name pat))
      else packages
    if excludeGlobs.length > 0 then
      f1.filter (fun p => !(excludeGlobs.any (fun pat => matchGlob p.name pat)))
    else f1

/-- `isIgnoredCycle` (file-scoped suppression of intra cycles): some file
of the cycle matches some rule's pattern, where a rule carrying a package
scope only applies when the owning package matches that scope. -/
def isIgnoredCycle (matchGlob : String → String → Bool) (cycle : List String)
    (packageName : Option String) (config : Option CircularConfig) : Bool :=
  match config.bind (fun c => c.ignoreCycles) with
  | none => false
  | some rules =>
    if rules.isEmpty then false
    else
      cycle.any (fun file =>
        rules.any (fun ig =>
          match ig.package, packageName with
          | some scope, some pname =>
            if !(matchGlob pname scope) then false else matchGlob file ig.pattern
          | _, _ => matchGlob file ig.pattern))

/-- `isIgnoredPackageCycle`: a detected inter-package cycle is suppressed
when some configured ignore set is entirely contained in the cycle's
members. -/
def isIgnoredPackageCycle (cycle : List String)
    (config : Option CircularConfig) : Bool :=
  match config.bind (fun c => c.ignorePackageCycles) with
  | none => false
  | some rules =>
    if rules.isEmpty then false
    else rules.any (fun ignoredCycle => ignoredCycle.all (fun pkg => cycle.contains pkg))

/-- `runIntraPackage`, instrumented: besides the issues, return the
`logger.warn` messages and the list of analyzer invocations
`(tool, sourceRoot)` actually made.  The two extra components are ghost
outputs: the issue computation never reads them. -/
def runIntraPackageFull (matchGlob : String → String → Bool)
    (runner : Tool → String → Except String (List (List String)))
    (pkg : PackageInfo) (tools : List Tool) (config : Option CircularConfig) :
    List Issue × List String × List (Tool × String) :=
  let severity := (config.bind (fun c => c.intraPackageSeverity)).getD SeverityLevel.high
  let acc := tools.foldl
    (fun (acc : List (List String) × List String × List (Tool × String)) tool =>
      let calls := acc.2.2 ++ [(tool, pkg.path)]
      match runner tool pkg.path with
      | Except.ok circular => (acc.1 ++ circular, acc.2.1, calls)
      | Except.error e =>
        (acc.1, acc.2.1 ++ [toolName tool ++ " failed for " ++ pkg.name ++ ": " ++ e], calls))
    ([], [], [])
  let unique := deduplicateCycles acc.1
  (unique.filterMap (fun cycle =>
      if isIgnoredCycle matchGlob cycle (some pkg.name) config then none
      else
        some { severity := severity,
               type := "circular-import",
               package := some pkg.name,
               message := "Circular import chain: " ++ joinArrow cycle,
               fix := some "Refactor to break the cycle (extract shared code, use lazy imports, or restructure modules)" }),
   acc.2.1, acc.2.2)

/-- The issues produced by `runIntraPackage` for one package. -/
def runIntraPackage (matchGlob : String → String → Bool)
    (runner : Tool → String → Except String (List (List String)))
    (pkg : PackageInfo) (tools : List Tool) (config : Option CircularConfig) :
    List Issue :=
  (runIntraPackageFull matchGlob runner pkg tools config).1

/-- Per-severity statistics, as computed inline at the end of `check`. -/
def mkStats (issues : List Issue) : Stats :=
  { total := issues.length,
    critical := (issues.filter (fun i => i.severity == SeverityLevel.critical)).length,
    high := (issues.filter (fun i => i.severity == SeverityLevel.high)).length,
    medium := (issues.filter (fun i => i.severity == SeverityLevel.medium)).length,
    low := (issues.filter (fun i => i.severity == SeverityLevel.low)).length }

/-- The `check` entry point of the circular domain handler.  The loaded
configuration, the resolved workspace, the glob matcher and the analyzer
runner are explicit parameters (they are collaborators acquired by the
source before the pure computation this models). -/
def check (matchGlob : String → String → Bool)
    (runner : Tool → String → Except String (List (List String)))
    (config : Option CircularConfig) (workspace : WorkspaceInfo)
    (options : CircularCheckOptions) : CheckResult :=
  if (config.bind (fun c => c.enabled)) == some false then
    { success := true, issues := [],
      stats := { total := 0, critical := 0, high := 0, medium := 0, low := 0 } }
  else
    let runIntra := options.intra || options.all || (!options.intra && !options.inter)
    let runInter := options.inter || options.all || (!options.intra && !options.inter)
    let tools :=
      match options.tool with
      | some t => [t]
      | none => (config.bind (fun c => c.tools)).getD [Tool.dpdm, Tool.madge]
    let intraIssues :=
      if runIntra && !((config.bind (fun c => c.intraPackage)) == some false) then
        ((filterPackages matchGlob workspace.packages options.packages config).map
            (fun pkg => runIntraPackage matchGlob runner pkg tools config)).flatten
      else []
    let interIssues :=
      if runInter && !((config.bind (fun c => c.interPackage)) == some false) then
        let severity := (config.bind (fun c => c.interPackageSeverity)).getD SeverityLevel.critical
        (detectInterPackageCycles workspace.packages).filterMap
          (fun cycle =>
            if isIgnoredPackageCycle cycle config then none
            else
              some { severity := severity,
                     type := "circular-workspace-dep",
                     message := "Circular workspace dependency: " ++ joinArrow cycle
                       ++ " -> " ++ (cycle.head?.getD "undefined"),
                     fix := some "Restructure packages to break the workspace dependency cycle" })
      else []
    let issues := intraIssues ++ interIssues
    { success := issues.length == 0, issues := issues, stats := mkStats issues }

/-! ### Deduplication: specification-side definition and characterization -/

/-- Specification-side deduplication, following §4.4 of the spec: keep
each cycle whose canonical key has not occurred earlier, i.e. retain the
first occurrence of every key in first-seen order. -/
def dedupSpec : List (List String) → List (List String)
  | [] => []
  | c :: rest =>
    c :: dedupSpec (rest.filter (fun c2 => !(normalizeCycle c2 == normalizeCycle c)))
termination_by l => l.length
decreasing_by
  simp only [List.length_cons]
  exact Nat.lt_succ_of_le (List.length_filter_le _ _)

/-- The last-assigned value of key `k` in an assignment list. -/
def lookupLast (l : List (String × String)) (k : String) : Option String :=
  ((l.filter (fun e => e.1 == k)).getLast?).map Prod.snd

/-- Pointwise replacement of one analyzer invocation's outcome. -/
def overrideRunner (runner : Tool → String → Except String (List (List String)))
    (t0 : Tool) (p0 : String) (r : Except String (List (List String))) :
    Tool → String → Except String (List (List String)) :=
  fun t p => if t = t0 ∧ p = p0 then r else runner t p

/-- The two-package workspace of claim C1: `@p/a` and `@p/b` depend on
each other through the workspace protocol. -/
def wsC1 : WorkspaceInfo :=
  ⟨[⟨"@p/a", "packages/a", [("@p/b", "workspace:*")], []⟩,
    ⟨"@p/b", "packages/b", [("@p/a", "workspace:*")], []⟩]⟩

/-- The workspace used to refute C7 as stated: `A` depends on `B` and
`C`, `B` depends back on `A`, and `C` depends on `B`. -/
def moveBefore : List PackageInfo :=
  [⟨"A", "packages/a", [("B", "workspace:*"), ("C", "workspace:*")], []⟩,
   ⟨"B", "packages/b", [("A", "workspace:*")], []⟩,
   ⟨"C", "packages/c", [("B", "workspace:*")], []⟩]

/-- `moveBefore` after moving `A`'s entry for `B` from its dependency map
to its dev-dependency map. -/
def moveAfter : List PackageInfo :=
  [⟨"A", "packages/a", [("C", "workspace:*")], [("B", "workspace:*")]⟩,
   ⟨"B", "packages/b", [("A", "workspace:*")], []⟩,
   ⟨"C", "packages/c", [("B", "workspace:*")], []⟩]

/-- The workspace refuting C9 as stated: the package name `"a -> b"`
contains the join separator, so the self-cycle `["a -> b"]` and the
two-cycle `["a", "b"]` get the same canonical key and the deduplication
pass is not a no-op on the raw inter-package cycle stream. -/
def sepNamed : List PackageInfo :=
  [⟨"a -> b", "packages/ab", [("a -> b", "workspace:*")], []⟩,
   ⟨"a", "packages/a", [("b", "workspace:*")], []⟩,
   ⟨"b", "packages/b", [("a", "workspace:*")], []⟩]

section DfsDefs

variable (adj : String → List String) (V : List String)

/-- The execution invariant of the three-color DFS: the ghost `order`
lists pairwise-distinct known names that are no longer white; the path is
a gray chain of graph edges listed in graying order; every recorded cycle
is a nonempty chain of edges closed by a back edge, its members listed in
graying order, and no two recorded cycles are rotations of each other. -/
structure DfsInv (st : DfsState) : Prop where
  order_nodup : st.order.Nodup
  order_colored : ∀ n ∈ st.order, st.color n ≠ Color.white
  order_mem : ∀ n ∈ st.order, n ∈ V
  path_sub : st.path.Sublist st.order
  path_gray : ∀ n ∈ st.path, st.color n = Color.gray
  path_chain : List.Chain' (fun a b => b ∈ adj a) st.path
  cyc_ne : ∀ c ∈ st.cycles, c ≠ []
  cyc_sub : ∀ c ∈ st.cycles, c.Sublist st.order
  cyc_chain : ∀ c ∈ st.cycles, List.Chain' (fun a b => b ∈ adj a) c
  cyc_edge : ∀ c ∈ st.cycles, ∀ x ∈ c.head?, ∀ y ∈ c.getLast?, x ∈ adj y
  cyc_pairwise : List.Pairwise (fun c1 c2 => ¬ c1.IsRotated c2) st.cycles

/-- What one call of the recursive `dfs` guarantees: it grays-then-blacks
a batch `Δ` of previously white nodes, restores the path, only appends
cycles, every appended cycle closes at a node of `Δ`, and the invariant
is preserved. -/
def VisitSpec (visit : String → DfsState → DfsState) : Prop :=
  ∀ (node : String) (st : DfsState), DfsInv adj V st → st.color node = Color.white →
    node ∈ V →
    (st.path = [] ∨ ∃ u, st.path.getLast? = some u ∧ node ∈ adj u) →
    ∃ Δ : List String,
      (visit node st).order = st.order ++ Δ ∧
      (∀ n ∈ Δ, st.color n = Color.white) ∧
      (∀ n, (visit node st).color n = if n ∈ Δ then Color.black else st.color n) ∧
      (visit node st).path = st.path ∧
      (∃ newC, (visit node st).cycles = st.cycles ++ newC ∧
        ∀ c ∈ newC, ∀ y ∈ c.getLast?, y ∈ Δ) ∧
      DfsInv adj V (visit node st)

end DfsDefs



theorem dedup_go (cs : List (List String)) : ∀ (seen : List String) (res : List (List String)),
    (cs.foldl
        (fun (acc : List String × List (List String)) cycle =>
          let key := normalizeCycle cycle
          if key ∈ acc.1 then acc else (key :: acc.1, acc.2 ++ [cycle]))
        (seen, res)).2
      = res ++ dedupSpec (cs.filter (fun c => !(seen.contains (normalizeCycle c)))) := by
  induction cs with
  | nil => simp [dedupSpec]
  | cons c rest ih =>
    intro seen res
    by_cases h : normalizeCycle c ∈ seen
    · simp only [List.foldl_cons, if_pos h]
      rw [ih]
      congr 2
      simp [List.filter_cons, h]
    · simp only [List.foldl_cons, if_neg h]
      rw [ih]
      rw [List.filter_cons_of_pos (by simp [h]), dedupSpec, List.filter_filter]
      have hfe : List.filter (fun c2 => !((normalizeCycle c :: seen).contains (normalizeCycle c2))) rest
          = List.filter (fun a => (!(normalizeCycle a == normalizeCycle c) && !(seen.contains (normalizeCycle a)))) rest := by
        apply List.filter_congr
        intro c2 _
        by_cases h2 : normalizeCycle c2 = normalizeCycle c
        · simp [h2]
        · by_cases h3 : normalizeCycle c2 ∈ seen <;> simp [h2, h3]
      rw [hfe]
      simp

theorem deduplicateCycles_eq_dedupSpec (cs : List (List String)) :
    deduplicateCycles cs = dedupSpec cs := by
  unfold deduplicateCycles
  rw [dedup_go cs [] []]
  simp

/-! ### Claim theorems (first batch) -/

theorem mem_foldl_dedup (x : String) (l : List String) : ∀ acc : List String,
    (x ∈ l.foldl (fun acc y => if y ∈ acc then acc else acc ++ [y]) acc) ↔ (x ∈ acc ∨ x ∈ l) := by
  induction l with
  | nil => simp
  | cons y rest ih =>
    intro acc
    by_cases h : y ∈ acc
    · simp only [List.foldl_cons, if_pos h, ih]
      constructor
      · rintro (h1 | h1)
        · exact Or.inl h1
        · exact Or.inr (List.mem_cons_of_mem _ h1)
      · rintro (h1 | h1)
        · exact Or.inl h1
        · rcases List.mem_cons.mp h1 with h2 | h2
          · exact Or.inl (h2 ▸ h)
          · exact Or.inr h2
    · simp only [List.foldl_cons, if_neg h, ih]
      simp [List.mem_append, or_assoc, List.mem_cons]

theorem mem_insertionOrderDedup (x : String) (l : List String) :
    x ∈ insertionOrderDedup l ↔ x ∈ l := by
  unfold insertionOrderDedup
  rw [mem_foldl_dedup]
  simp

theorem mem_workspaceNames (x : String) (packages : List PackageInfo) :
    x ∈ workspaceNames packages ↔ x ∈ packages.map PackageInfo.name := by
  unfold workspaceNames
  exact mem_insertionOrderDedup _ _

theorem filter_name_eq (packages : List PackageInfo) (pkg : PackageInfo)
    (hnd : (packages.map PackageInfo.name).Nodup) (hmem : pkg ∈ packages) :
    packages.filter (fun p => p.name == pkg.name) = [pkg] := by
  induction packages with
  | nil => cases hmem
  | cons q rest ih =>
    simp only [List.map_cons, List.nodup_cons] at hnd
    rcases List.mem_cons.mp hmem with h | h
    · subst h
      rw [List.filter_cons_of_pos (by simp)]
      have : rest.filter (fun p => p.name == pkg.name) = [] := by
        apply List.filter_eq_nil_iff.mpr
        intro p hp
        simp only [beq_iff_eq]
        intro he
        exact hnd.1 (he ▸ List.mem_map_of_mem PackageInfo.name hp)
      rw [this]
    · have hne : q.name ≠ pkg.name := by
        intro he
        exact hnd.1 (he ▸ List.mem_map_of_mem PackageInfo.name h)
      rw [List.filter_cons_of_neg (by simp [hne])]
      exact ih hnd.2 h

/-- C2: for distinctly-named package descriptors, the graph has an edge
from `pkg.name` to `B` iff the merged dependency/dev-dependency object of
`pkg` holds an entry for `B` whose specifier starts with the workspace
protocol and `B` is a known workspace name; other specifiers never create
edges and dangling workspace references are dropped (the construction is
total, so no error is possible). -/
theorem workspace_edge_iff (packages : List PackageInfo) (pkg : PackageInfo) (B : String)
    (hnd : (packages.map PackageInfo.name).Nodup) (hmem : pkg ∈ packages) :
    B ∈ adjOf packages pkg.name ↔
      ∃ v, (B, v) ∈ objEntries (pkg.dependencies ++ pkg.devDependencies) ∧
        strStartsWith v "workspace:" = true ∧ B ∈ packages.map PackageInfo.name := by
  unfold adjOf
  rw [filter_name_eq packages pkg hnd hmem]
  simp only [List.getLast?_singleton]
  unfold neighborsOf
  rw [List.mem_filterMap]
  constructor
  · rintro ⟨e, he, hfe⟩
    by_cases hcond : (strStartsWith e.2 "workspace:" && (workspaceNames packages).contains e.1) = true
    · rw [if_pos hcond] at hfe
      obtain ⟨h1, h2⟩ := Bool.and_eq_true_iff.mp hcond
      injection hfe with hb
      subst hb
      refine ⟨e.2, he, h1, ?_⟩
      rw [← mem_workspaceNames]
      simpa using h2
    · rw [if_neg hcond] at hfe
      cases hfe
  · rintro ⟨v, hv, hsw, hmemB⟩
    refine ⟨(B, v), hv, ?_⟩
    rw [if_pos]
    simp only [Bool.and_eq_true_iff]
    exact ⟨hsw, by simpa using (mem_workspaceNames B packages).mpr hmemB⟩

/-- C6: a single package that declares a workspace-protocol dependency
on itself yields exactly the one-element cycle `[name]`. -/
theorem self_dep_single_cycle (name path version : String)
    (hv : strStartsWith version "workspace:" = true) :
    detectInterPackageCycles [⟨name, path, [(name, version)], []⟩] = [[name]] := by
  have hnames : workspaceNames [⟨name, path, [(name, version)], []⟩] = [name] := by
    simp [workspaceNames, insertionOrderDedup]
  have hadj : adjOf [⟨name, path, [(name, version)], []⟩] name = [name] := by
    simp [adjOf, neighborsOf, hnames, objEntries, objUpsert, hv]
  unfold detectInterPackageCycles
  rw [hnames]
  simp only [List.foldl_cons, List.foldl_nil, List.length_singleton]
  rw [if_pos (by rfl)]
  unfold dfsVisit
  rw [hadj]
  simp [dfsStep, pushCycle, dfsInit, Function.update_same]


/-- C3: deduplication canonicalizes each cycle by rotating its
lexicographically smallest element to the front and joining (that is
`normalizeCycle`); cycles with identical keys are identified and only the
first occurrence is retained, in first-seen order (`dedupSpec` is exactly
that description); in particular `[a,b,c]` and `[b,c,a]` collapse to a
single cycle. -/
theorem dedup_canonical_first_seen :
    (∀ cs : List (List String), deduplicateCycles cs = dedupSpec cs) ∧
      deduplicateCycles [["a", "b", "c"], ["b", "c", "a"]] = [["a", "b", "c"]] :=
  ⟨deduplicateCycles_eq_dedupSpec, by decide⟩

/-- C4: an inter-package cycle is suppressed if and only if its member
set contains every package of some configured ignore set, regardless of
order, length or extra members. -/
theorem ignored_package_cycle_iff_superset (cycle : List String) (config : Option CircularConfig) :
    isIgnoredPackageCycle cycle config = true ↔
      ∃ rule ∈ (config.bind (fun c => c.ignorePackageCycles)).getD [],
        ∀ p ∈ rule, p ∈ cycle := by
  unfold isIgnoredPackageCycle
  cases h : config.bind (fun c => c.ignorePackageCycles) with
  | none => simp
  | some rules =>
    cases rules with
    | nil => simp
    | cons r rs => simp [List.any_eq_true, List.all_eq_true]

/-- C5: the check succeeds exactly when the merged issue list is empty —
one issue of any severity makes `success` false. -/
theorem check_success_iff_no_issues (matchGlob : String → String → Bool)
    (runner : Tool → String → Except String (List (List String)))
    (config : Option CircularConfig) (workspace : WorkspaceInfo)
    (options : CircularCheckOptions) :
    (check matchGlob runner config workspace options).success = true ↔
      (check matchGlob runner config workspace options).issues = [] := by
  unfold check
  split
  · simp
  · simp [List.length_eq_zero]


/-- C1: on the mutually-dependent two-package workspace, an inter-only
check (with the check enabled and no matching ignore rule) fails with
exactly one issue of type `circular-workspace-dep` at the configured
inter-package severity (default `critical`), and `stats.total = 1`. -/
theorem inter_only_check_mutual_cycle (matchGlob : String → String → Bool)
    (runner : Tool → String → Except String (List (List String))) (cfg : CircularConfig)
    (hen : cfg.enabled ≠ some false) (hip : cfg.interPackage ≠ some false)
    (hig : (cfg.ignorePackageCycles).getD [] = []) :
    (check matchGlob runner (some cfg) wsC1 { inter := true }).success = false ∧
    (check matchGlob runner (some cfg) wsC1 { inter := true }).stats.total = 1 ∧
    (check matchGlob runner (some cfg) wsC1 { inter := true }).issues.map
        (fun i => (i.type, i.severity)) =
      [("circular-workspace-dep", cfg.interPackageSeverity.getD SeverityLevel.critical)] := by
  have hdet : detectInterPackageCycles wsC1.packages = [["@p/a", "@p/b"]] := by decide
  have hen' : ((some cfg).bind (fun c => c.enabled) == some false) = false := by
    simp only [Option.some_bind]
    exact beq_eq_false_iff_ne.mpr hen
  have hip' : ((some cfg).bind (fun c => c.interPackage) == some false) = false := by
    simp only [Option.some_bind]
    exact beq_eq_false_iff_ne.mpr hip
  have hign : ∀ cyc, isIgnoredPackageCycle cyc (some cfg) = false := by
    intro cyc
    unfold isIgnoredPackageCycle
    simp only [Option.some_bind]
    cases h : cfg.ignorePackageCycles with
    | none => rfl
    | some rules =>
      rw [h] at hig
      simp only [Option.getD_some] at hig
      subst hig
      rfl
  unfold check
  rw [hen']
  simp only [Bool.false_eq_true, if_false]
  rw [hip', hdet]
  simp [hign, mkStats]


theorem inter_only_check_mutual_cycle_witness :
    (({} : CircularConfig).enabled ≠ some false ∧
      ({} : CircularConfig).interPackage ≠ some false ∧
      (({} : CircularConfig).ignorePackageCycles).getD [] = []) ∧
    ((check (fun _ _ => false) (fun _ _ => Except.error "unavailable") (some {}) wsC1
        { inter := true }).success = false ∧
      (check (fun _ _ => false) (fun _ _ => Except.error "unavailable") (some {}) wsC1
        { inter := true }).stats.total = 1 ∧
      (check (fun _ _ => false) (fun _ _ => Except.error "unavailable") (some {}) wsC1
        { inter := true }).issues.map (fun i => (i.type, i.severity)) =
        [("circular-workspace-dep", ({} : CircularConfig).interPackageSeverity.getD SeverityLevel.critical)]) :=
  ⟨⟨by decide, by decide, by decide⟩,
   inter_only_check_mutual_cycle (fun _ _ => false) (fun _ _ => Except.error "unavailable") {}
     (by decide) (by decide) (by decide)⟩

theorem fold_cycles_eq (runner : Tool → String → Except String (List (List String)))
    (t0 : Tool) (p0 : String) (e : String) (hfail : runner t0 p0 = Except.error e)
    (pkg : PackageInfo) (nm : String) :
    ∀ (tools : List Tool)
      (acc acc' : List (List String) × List String × List (Tool × String)),
      acc.1 = acc'.1 →
      ((tools.foldl
          (fun acc tool =>
            let calls := acc.2.2 ++ [(tool, pkg.path)]
            match runner tool pkg.path with
            | Except.ok circular => (acc.1 ++ circular, acc.2.1, calls)
            | Except.error er =>
              (acc.1, acc.2.1 ++ [toolName tool ++ " failed for " ++ nm ++ ": " ++ er], calls))
          acc).1
        = (tools.foldl
            (fun acc tool =>
              let calls := acc.2.2 ++ [(tool, pkg.path)]
              match overrideRunner runner t0 p0 (Except.ok []) tool pkg.path with
              | Except.ok circular => (acc.1 ++ circular, acc.2.1, calls)
              | Except.error er =>
                (acc.1, acc.2.1 ++ [toolName tool ++ " failed for " ++ nm ++ ": " ++ er], calls))
            acc').1) := by
  intro tools
  induction tools with
  | nil => intro acc acc' h; simpa using h
  | cons t rest ih =>
    intro acc acc' h
    simp only [List.foldl_cons]
    apply ih
    by_cases hc : t = t0 ∧ pkg.path = p0
    · obtain ⟨ht, hp⟩ := hc
      subst ht
      rw [hp, hfail]
      have hov : overrideRunner runner t p0 (Except.ok []) t p0 = Except.ok [] := by
        simp [overrideRunner]
      rw [hov]
      simpa using h
    · have hov : overrideRunner runner t0 p0 (Except.ok []) t pkg.path = runner t pkg.path := by
        simp only [overrideRunner]
        rw [if_neg hc]
      rw [hov]
      cases hr : runner t pkg.path <;> simp [h]

theorem runIntraPackage_override (matchGlob : String → String → Bool)
    (runner : Tool → String → Except String (List (List String)))
    (t0 : Tool) (p0 : String) (e : String) (hfail : runner t0 p0 = Except.error e)
    (pkg : PackageInfo) (tools : List Tool) (config : Option CircularConfig) :
    runIntraPackage matchGlob runner pkg tools config
      = runIntraPackage matchGlob (overrideRunner runner t0 p0 (Except.ok [])) pkg tools config := by
  unfold runIntraPackage runIntraPackageFull
  have := fold_cycles_eq runner t0 p0 e hfail pkg pkg.name tools ([], [], []) ([], [], []) rfl
  simp only at this ⊢
  rw [this]

theorem check_override (matchGlob : String → String → Bool)
    (runner : Tool → String → Except String (List (List String)))
    (t0 : Tool) (p0 : String) (e : String) (hfail : runner t0 p0 = Except.error e)
    (config : Option CircularConfig) (workspace : WorkspaceInfo)
    (options : CircularCheckOptions) :
    check matchGlob runner config workspace options
      = check matchGlob (overrideRunner runner t0 p0 (Except.ok [])) config workspace options := by
  unfold check
  have hri : ∀ (tools : List Tool) (pkg : PackageInfo),
      runIntraPackage matchGlob runner pkg tools config
        = runIntraPackage matchGlob (overrideRunner runner t0 p0 (Except.ok [])) pkg tools config :=
    fun tools pkg => runIntraPackage_override matchGlob runner t0 p0 e hfail pkg tools config
  simp only [hri]

theorem fold_calls (runner : Tool → String → Except String (List (List String)))
    (pkg : PackageInfo) (nm : String) : ∀ (tools : List Tool)
      (acc : List (List String) × List String × List (Tool × String)),
    ((tools.foldl
        (fun acc tool =>
          let calls := acc.2.2 ++ [(tool, pkg.path)]
          match runner tool pkg.path with
          | Except.ok circular => (acc.1 ++ circular, acc.2.1, calls)
          | Except.error er =>
            (acc.1, acc.2.1 ++ [toolName tool ++ " failed for " ++ nm ++ ": " ++ er], calls))
        acc).2.2)
      = acc.2.2 ++ tools.map (fun t => (t, pkg.path)) := by
  intro tools
  induction tools with
  | nil => intro acc; simp
  | cons t rest ih =>
    intro acc
    simp only [List.foldl_cons]
    cases hr : runner t pkg.path <;> rw [ih] <;> simp

theorem fold_warn_mem (runner : Tool → String → Except String (List (List String)))
    (pkg : PackageInfo) (nm : String) (t0 : Tool) (e : String)
    (hfail : runner t0 pkg.path = Except.error e) : ∀ (tools : List Tool)
      (acc : List (List String) × List String × List (Tool × String)),
    (t0 ∈ tools ∨ (toolName t0 ++ " failed for " ++ nm ++ ": " ++ e) ∈ acc.2.1) →
    (toolName t0 ++ " failed for " ++ nm ++ ": " ++ e) ∈
      ((tools.foldl
        (fun acc tool =>
          let calls := acc.2.2 ++ [(tool, pkg.path)]
          match runner tool pkg.path with
          | Except.ok circular => (acc.1 ++ circular, acc.2.1, calls)
          | Except.error er =>
            (acc.1, acc.2.1 ++ [toolName tool ++ " failed for " ++ nm ++ ": " ++ er], calls))
        acc).2.1) := by
  intro tools
  induction tools with
  | nil =>
    intro acc h
    rcases h with h | h
    · cases h
    · simpa using h
  | cons t rest ih =>
    intro acc h
    simp only [List.foldl_cons]
    apply ih
    rcases h with h | h
    · rcases List.mem_cons.mp h with h1 | h1
      · subst h1
        rw [hfail]
        exact Or.inr (by simp)
      · exact Or.inl h1
    · cases hr : runner t pkg.path
      · exact Or.inr (by simpa using Or.inl h)
      · exact Or.inr h

/-- C8: a failing analyzer run is caught (the failure message is logged
as a warning), contributes nothing, is attempted exactly once (the
invocation trace lists each configured analyzer once for the package),
and never aborts the run: the whole check result equals the one obtained
when the failing invocation instead returns an empty cycle list, so every
other analyzer and package is unaffected. -/
theorem analyzer_failure_isolated (matchGlob : String → String → Bool)
    (runner : Tool → String → Except String (List (List String)))
    (config : Option CircularConfig) (workspace : WorkspaceInfo)
    (options : CircularCheckOptions) (pkg0 : PackageInfo) (tools : List Tool)
    (t0 : Tool) (e : String)
    (hfail : runner t0 pkg0.path = Except.error e) (htool : t0 ∈ tools) :
    check matchGlob runner config workspace options
      = check matchGlob (overrideRunner runner t0 pkg0.path (Except.ok [])) config workspace options
    ∧ (runIntraPackageFull matchGlob runner pkg0 tools config).2.2
        = tools.map (fun t => (t, pkg0.path))
    ∧ (toolName t0 ++ " failed for " ++ pkg0.name ++ ": " ++ e)
        ∈ (runIntraPackageFull matchGlob runner pkg0 tools config).2.1 := by
  refine ⟨check_override matchGlob runner t0 pkg0.path e hfail config workspace options, ?_, ?_⟩
  · unfold runIntraPackageFull
    simp only
    rw [fold_calls runner pkg0 pkg0.name tools ([], [], [])]
    simp
  · unfold runIntraPackageFull
    simp only
    exact fold_warn_mem runner pkg0 pkg0.name t0 e hfail tools ([], [], []) (Or.inl htool)

theorem analyzer_failure_isolated_witness :
    ((fun (_ : Tool) (_ : String) => (Except.error "spawn dpdm ENOENT" : Except String (List (List String)))) Tool.dpdm "packages/x" = Except.error "spawn dpdm ENOENT")
    ∧ (Tool.dpdm ∈ [Tool.dpdm, Tool.madge])
    ∧ (check (fun _ _ => false) (fun _ _ => Except.error "spawn dpdm ENOENT") none wsC1 {}
        = check (fun _ _ => false)
            (overrideRunner (fun _ _ => Except.error "spawn dpdm ENOENT") Tool.dpdm "packages/x" (Except.ok []))
            none wsC1 {}
      ∧ (runIntraPackageFull (fun _ _ => false) (fun _ _ => Except.error "spawn dpdm ENOENT")
            ⟨"@p/x", "packages/x", [], []⟩ [Tool.dpdm, Tool.madge] none).2.2
          = [Tool.dpdm, Tool.madge].map (fun t => (t, "packages/x"))
      ∧ ("dpdm failed for @p/x: spawn dpdm ENOENT")
          ∈ (runIntraPackageFull (fun _ _ => false) (fun _ _ => Except.error "spawn dpdm ENOENT")
              ⟨"@p/x", "packages/x", [], []⟩ [Tool.dpdm, Tool.madge] none).2.1) :=
  ⟨rfl, by decide,
   analyzer_failure_isolated (fun _ _ => false) (fun _ _ => Except.error "spawn dpdm ENOENT")
     none wsC1 {} ⟨"@p/x", "packages/x", [], []⟩ [Tool.dpdm, Tool.madge] Tool.dpdm
     "spawn dpdm ENOENT" rfl (by decide)⟩



theorem workspace_edge_iff_witness :
    ((wsC1.packages.map PackageInfo.name).Nodup ∧
      (⟨"@p/a", "packages/a", [("@p/b", "workspace:*")], []⟩ : PackageInfo) ∈ wsC1.packages) ∧
    ("@p/b" ∈ adjOf wsC1.packages (⟨"@p/a", "packages/a", [("@p/b", "workspace:*")], []⟩ : PackageInfo).name ↔
      ∃ v, ("@p/b", v) ∈ objEntries
          ((⟨"@p/a", "packages/a", [("@p/b", "workspace:*")], []⟩ : PackageInfo).dependencies ++
            (⟨"@p/a", "packages/a", [("@p/b", "workspace:*")], []⟩ : PackageInfo).devDependencies) ∧
        strStartsWith v "workspace:" = true ∧ "@p/b" ∈ wsC1.packages.map PackageInfo.name) :=
  ⟨⟨by decide, by decide⟩,
   workspace_edge_iff wsC1.packages ⟨"@p/a", "packages/a", [("@p/b", "workspace:*")], []⟩ "@p/b"
     (by decide) (by decide)⟩

theorem self_dep_single_cycle_witness :
    strStartsWith "workspace:*" "workspace:" = true ∧
    detectInterPackageCycles [⟨"@p/self", "packages/self", [("@p/self", "workspace:*")], []⟩]
      = [["@p/self"]] :=
  ⟨by decide, self_dep_single_cycle "@p/self" "packages/self" "workspace:*" (by decide)⟩


theorem mem_objUpsert (m : List (String × String)) (k v k' v' : String) :
    ((k', v') ∈ objUpsert m k v) ↔ (if k' = k then v' = v else (k', v') ∈ m) := by
  unfold objUpsert
  by_cases hany : (m.any (fun e => e.1 == k)) = true
  · rw [if_pos hany]
    rw [List.mem_map]
    by_cases hk : k' = k
    · subst hk
      rw [if_pos rfl]
      constructor
      · rintro ⟨e, he, him⟩
        by_cases h1 : e.1 == k'
        · rw [if_pos h1] at him
          exact (Prod.mk.injEq _ _ _ _ ▸ him) |>.2.symm ▸ rfl
        · rw [if_neg h1] at him
          subst him
          simp at h1
      · rintro rfl
        obtain ⟨e, he, hek⟩ := List.any_eq_true.mp hany
        exact ⟨e, he, by rw [if_pos hek]⟩
    · rw [if_neg hk]
      constructor
      · rintro ⟨e, he, him⟩
        by_cases h1 : e.1 == k
        · rw [if_pos h1] at him
          exact absurd (congrArg Prod.fst him).symm hk
        · rw [if_neg h1] at him
          exact him ▸ he
      · intro hmem
        refine ⟨(k', v'), hmem, ?_⟩
        rw [if_neg (by simp [hk])]
  · rw [if_neg hany]
    rw [List.mem_append]
    by_cases hk : k' = k
    · subst hk
      rw [if_pos rfl]
      constructor
      · rintro (h | h)
        · exfalso
          exact hany (List.any_eq_true.mpr ⟨(k', v'), h, by simp⟩)
        · simpa using h
      · rintro rfl
        exact Or.inr (by simp)
    · rw [if_neg hk]
      constructor
      · rintro (h | h)
        · exact h
        · simp at h
          exact absurd h.1 hk
      · exact Or.inl

theorem lookupLast_cons (k0 v0 : String) (rest : List (String × String)) (k : String) :
    lookupLast ((k0, v0) :: rest) k =
      match lookupLast rest k with
      | some w => some w
      | none => if k0 = k then some v0 else none := by
  unfold lookupLast
  by_cases hk : k0 = k
  · rw [List.filter_cons_of_pos (by simp [hk])]
    cases hl : rest.filter (fun e => e.1 == k) with
    | nil => simp [hl, hk]
    | cons a l =>
      rw [List.getLast?_cons_cons]
      cases h2 : (a :: l).getLast? with
      | none => simp at h2
      | some e => simp [h2]
  · rw [List.filter_cons_of_neg (by simp [hk])]
    cases hrest : (rest.filter (fun e => e.1 == k)).getLast? <;> simp [hrest, hk]

theorem mem_objEntriesFrom (l : List (String × String)) : ∀ (m : List (String × String)) (k v : String),
    ((k, v) ∈ l.foldl (fun m e => objUpsert m e.1 e.2) m) ↔
      (match lookupLast l k with
       | some w => v = w
       | none => (k, v) ∈ m) := by
  induction l with
  | nil =>
    intro m k v
    simp [lookupLast]
  | cons e rest ih =>
    intro m k v
    obtain ⟨k0, v0⟩ := e
    rw [List.foldl_cons, lookupLast_cons]
    rw [ih (objUpsert m k0 v0) k v]
    cases hrest : lookupLast rest k with
    | some w => rfl
    | none =>
      simp only
      rw [mem_objUpsert]
      by_cases hk : k = k0
      · subst hk
        simp
      · rw [if_neg hk, if_neg (fun h => hk h.symm)]

theorem mem_objEntries (l : List (String × String)) (k v : String) :
    ((k, v) ∈ objEntries l) ↔ lookupLast l k = some v := by
  unfold objEntries
  rw [mem_objEntriesFrom]
  cases h : lookupLast l k with
  | none => simp
  | some w => simp [eq_comm]

theorem lookupLast_move (l1 l2 dev : List (String × String)) (d v : String)
    (h1 : ∀ e ∈ l1 ++ l2, e.1 ≠ d) (h2 : ∀ e ∈ dev, e.1 ≠ d) (k : String) :
    lookupLast ((l1 ++ (d, v) :: l2) ++ dev) k
      = lookupLast ((l1 ++ l2) ++ (dev ++ [(d, v)])) k := by
  unfold lookupLast
  simp only [List.filter_append]
  by_cases hk : k = d
  · subst hk
    have f1 : l1.filter (fun e => e.1 == k) = [] :=
      List.filter_eq_nil_iff.mpr (fun e he => by simp [h1 e (List.mem_append_left _ he)])
    have f2 : l2.filter (fun e => e.1 == k) = [] :=
      List.filter_eq_nil_iff.mpr (fun e he => by simp [h1 e (List.mem_append_right _ he)])
    have f3 : dev.filter (fun e => e.1 == k) = [] :=
      List.filter_eq_nil_iff.mpr (fun e he => by simp [h2 e he])
    rw [List.filter_cons_of_pos (by simp), f1, f2, f3]
    simp
  · have hdk : ¬((d, v).1 == k) = true := by
      simp only [beq_iff_eq]
      exact fun h => hk h.symm
    have f4 : ((d, v) :: l2).filter (fun e => e.1 == k)
        = l2.filter (fun e => e.1 == k) :=
      List.filter_cons_of_neg hdk
    have f5 : ([(d, v)] : List (String × String)).filter (fun e => e.1 == k) = [] :=
      List.filter_eq_nil_iff.mpr (fun e he => by
        rw [List.mem_singleton] at he
        subst he
        exact hdk)
    rw [f4, f5]
    simp

theorem mem_neighborsOf_of_lookupLast (ns : List String) (p q : PackageInfo)
    (h : ∀ k, lookupLast (p.dependencies ++ p.devDependencies) k
        = lookupLast (q.dependencies ++ q.devDependencies) k) (B : String) :
    B ∈ neighborsOf ns p ↔ B ∈ neighborsOf ns q := by
  unfold neighborsOf
  rw [List.mem_filterMap, List.mem_filterMap]
  constructor
  · rintro ⟨⟨kk, vv⟩, hmem, hfe⟩
    by_cases hc : (strStartsWith vv "workspace:" && ns.contains kk) = true
    · rw [if_pos hc] at hfe
      injection hfe with hkk
      subst hkk
      refine ⟨(kk, vv), ?_, by rw [if_pos hc]⟩
      rw [mem_objEntries, ← h, ← mem_objEntries]
      exact hmem
    · rw [if_neg hc] at hfe
      cases hfe
  · rintro ⟨⟨kk, vv⟩, hmem, hfe⟩
    by_cases hc : (strStartsWith vv "workspace:" && ns.contains kk) = true
    · rw [if_pos hc] at hfe
      injection hfe with hkk
      subst hkk
      refine ⟨(kk, vv), ?_, by rw [if_pos hc]⟩
      rw [mem_objEntries, h, ← mem_objEntries]
      exact hmem
    · rw [if_neg hc] at hfe
      cases hfe

/-- C7 (amended): moving one workspace-protocol entry from the dependency
map to the dev-dependency map (`pkg` to `pkg'`) preserves the edge set of
the constructed dependency graph: membership `B ∈ adj(A)` is unchanged
for every pair of names.  The adjacency list order — and hence the
witness cycles the DFS reports — may still change, see the
counterexample. -/
theorem move_dep_edge_invariant (pre post : List PackageInfo) (pkg pkg' : PackageInfo)
    (l1 l2 : List (String × String)) (d v : String)
    (hdeps : pkg.dependencies = l1 ++ (d, v) :: l2)
    (_hv : strStartsWith v "workspace:" = true)
    (h1 : ∀ e ∈ l1 ++ l2, e.1 ≠ d)
    (h2 : ∀ e ∈ pkg.devDependencies, e.1 ≠ d)
    (hname : pkg'.name = pkg.name)
    (hdeps' : pkg'.dependencies = l1 ++ l2)
    (hdev' : pkg'.devDependencies = pkg.devDependencies ++ [(d, v)])
    (A B : String) :
    B ∈ adjOf (pre ++ pkg :: post) A ↔ B ∈ adjOf (pre ++ pkg' :: post) A := by
  have hns : workspaceNames (pre ++ pkg :: post) = workspaceNames (pre ++ pkg' :: post) := by
    unfold workspaceNames
    congr 1
    simp [hname]
  have hlook : ∀ k, lookupLast (pkg.dependencies ++ pkg.devDependencies) k
      = lookupLast (pkg'.dependencies ++ pkg'.devDependencies) k := by
    intro k
    rw [hdeps, hdeps', hdev']
    exact lookupLast_move l1 l2 pkg.devDependencies d v h1 h2 k
  have hnbr : ∀ ns B', B' ∈ neighborsOf ns pkg ↔ B' ∈ neighborsOf ns pkg' :=
    fun ns B' => mem_neighborsOf_of_lookupLast ns pkg pkg' hlook B'
  unfold adjOf
  rw [List.filter_append, List.filter_append, List.filter_cons, List.filter_cons, hname]
  by_cases hA : (pkg.name == A) = true
  · rw [if_pos hA, if_pos hA]
    rw [List.getLast?_append, List.getLast?_append]
    cases hpf : post.filter (fun p => p.name == A) with
    | nil =>
      simp only [List.getLast?_singleton, Option.or_some]
      rw [← hns]
      exact hnbr _ B
    | cons q qs =>
      rw [List.getLast?_cons_cons, List.getLast?_cons_cons]
      cases hql : (q :: qs).getLast? with
      | none => simp at hql
      | some r =>
        simp only [Option.or_some]
        rw [← hns]
  · rw [if_neg hA, if_neg hA, ← hns]

/-- C7 (counterexample): moving `A`'s workspace dependency on `B` to the
dev-dependency map reorders `A`'s adjacency list, and the DFS then
reports the witness cycle `[A, C, B]` instead of `[A, B]` — the detected
cycles are not unchanged. -/
theorem move_dep_changes_cycles :
    detectInterPackageCycles moveBefore = [["A", "B"]] ∧
    detectInterPackageCycles moveAfter = [["A", "C", "B"]] ∧
    detectInterPackageCycles moveBefore ≠ detectInterPackageCycles moveAfter :=
  ⟨by decide, by decide, by decide⟩

theorem move_dep_edge_invariant_witness :
    ((⟨"A", "packages/a", [("B", "workspace:*"), ("C", "workspace:*")], []⟩ : PackageInfo).dependencies
        = [] ++ ("B", "workspace:*") :: [("C", "workspace:*")] ∧
      strStartsWith "workspace:*" "workspace:" = true ∧
      (∀ e ∈ (([] ++ [("C", "workspace:*")]) : List (String × String)), e.1 ≠ "B") ∧
      (∀ e ∈ (⟨"A", "packages/a", [("B", "workspace:*"), ("C", "workspace:*")], []⟩ : PackageInfo).devDependencies,
        e.1 ≠ "B")) ∧
    ("B" ∈ adjOf moveBefore "A" ↔ "B" ∈ adjOf moveAfter "A") :=
  ⟨⟨rfl, by decide, by decide, by decide⟩,
   move_dep_edge_invariant []
     [⟨"B", "packages/b", [("A", "workspace:*")], []⟩,
      ⟨"C", "packages/c", [("B", "workspace:*")], []⟩]
     ⟨"A", "packages/a", [("B", "workspace:*"), ("C", "workspace:*")], []⟩
     ⟨"A", "packages/a", [("C", "workspace:*")], [("B", "workspace:*")]⟩
     [] [("C", "workspace:*")] "B" "workspace:*"
     rfl (by decide) (by decide) (by decide) rfl rfl rfl "A" "B"⟩


theorem sublist_eq_of_mem_iff {L : List String} (hL : L.Nodup) :
    ∀ {l1 l2 : List String}, l1.Sublist L → l2.Sublist L → (∀ x, x ∈ l1 ↔ x ∈ l2) → l1 = l2 := by
  induction L with
  | nil =>
    intro l1 l2 h1 h2 _
    rw [List.sublist_nil.mp h1, List.sublist_nil.mp h2]
  | cons a L ih =>
    intro l1 l2 h1 h2 hm
    rw [List.nodup_cons] at hL
    by_cases ha : a ∈ l1
    · have ha2 : a ∈ l2 := (hm a).mp ha
      obtain ⟨t1, rfl, ht1⟩ : ∃ t1, l1 = a :: t1 ∧ t1.Sublist L := by
        rcases List.sublist_cons_iff.mp h1 with h | ⟨t1, rfl, ht⟩
        · exact absurd (h.mem ha) hL.1
        · exact ⟨t1, rfl, ht⟩
      obtain ⟨t2, rfl, ht2⟩ : ∃ t2, l2 = a :: t2 ∧ t2.Sublist L := by
        rcases List.sublist_cons_iff.mp h2 with h | ⟨t2, rfl, ht⟩
        · exact absurd (h.mem ha2) hL.1
        · exact ⟨t2, rfl, ht⟩
      have : ∀ x, x ∈ t1 ↔ x ∈ t2 := by
        intro x
        by_cases hx : x = a
        · subst hx
          constructor
          · intro h; exact absurd (ht1.mem h) hL.1
          · intro h; exact absurd (ht2.mem h) hL.1
        · have := hm x
          simp only [List.mem_cons] at this
          tauto
      rw [ih hL.2 ht1 ht2 this]
    · have ha2 : a ∉ l2 := fun h => ha ((hm a).mpr h)
      have ht1 : l1.Sublist L := by
        rcases List.sublist_cons_iff.mp h1 with h | ⟨t1, rfl, _⟩
        · exact h
        · exact absurd (List.mem_cons_self a t1) ha
      have ht2 : l2.Sublist L := by
        rcases List.sublist_cons_iff.mp h2 with h | ⟨t2, rfl, _⟩
        · exact h
        · exact absurd (List.mem_cons_self a t2) ha2
      exact ih hL.2 ht1 ht2 hm

theorem getLast?_drop_of_ne_nil {l : List String} {i : Nat} (h : l.drop i ≠ []) :
    (l.drop i).getLast? = l.getLast? := by
  conv_rhs => rw [← List.take_append_drop i l]
  rw [List.getLast?_append]
  cases hd : (l.drop i).getLast? with
  | none => exact absurd (List.getLast?_eq_none_iff.mp hd) h
  | some x => simp


section DfsInvariants

variable (adj : String → List String) (V : List String)

theorem pushCycle_facts (st : DfsState) (nb u : String)
    (hinv : DfsInv adj V st) (hu : st.path.getLast? = some u) (hmem : nb ∈ st.path) :
    st.path.drop (st.path.indexOf nb) ≠ [] ∧
    (st.path.drop (st.path.indexOf nb)).Sublist st.order ∧
    (st.path.drop (st.path.indexOf nb)).getLast? = some u ∧
    (st.path.drop (st.path.indexOf nb)).head? = some nb ∧
    List.Chain' (fun a b => b ∈ adj a) (st.path.drop (st.path.indexOf nb)) := by
  have hlt : st.path.indexOf nb < st.path.length := List.indexOf_lt_length.mpr hmem
  have hne : st.path.drop (st.path.indexOf nb) ≠ [] := by
    intro h
    have := List.drop_eq_nil_iff.mp h
    omega
  refine ⟨hne, (List.drop_sublist _ _).trans hinv.path_sub, ?_, ?_, ?_⟩
  · rw [getLast?_drop_of_ne_nil hne, hu]
  · rw [List.head?_drop, List.getElem?_eq_getElem hlt, List.getElem_indexOf hlt]
  · exact hinv.path_chain.suffix (List.drop_suffix _ _)

theorem dfsStep_spec (hadj : ∀ x, (adj x).Nodup) (hadjV : ∀ x, ∀ y ∈ adj x, y ∈ V)
    (visit : String → DfsState → DfsState) (hv : VisitSpec adj V visit) :
    ∀ (rest : List String) (st : DfsState) (u : String),
      DfsInv adj V st →
      st.path.getLast? = some u →
      rest.Sublist (adj u) →
      (∀ c ∈ st.cycles, c.getLast? = some u → ∀ x ∈ c.head?, x ∉ rest) →
      ∃ Δ : List String,
        (dfsStep visit rest st).order = st.order ++ Δ ∧
        (∀ n ∈ Δ, st.color n = Color.white) ∧
        (∀ n, (dfsStep visit rest st).color n = if n ∈ Δ then Color.black else st.color n) ∧
        (dfsStep visit rest st).path = st.path ∧
        (∃ newC, (dfsStep visit rest st).cycles = st.cycles ++ newC ∧
          ∀ c ∈ newC, ∀ y ∈ c.getLast?, y = u ∨ y ∈ Δ) ∧
        DfsInv adj V (dfsStep visit rest st) := by
  intro rest
  induction rest with
  | nil =>
    intro st u hinv hu hrest hL
    refine ⟨[], by simp [dfsStep], by simp, by simp [dfsStep], by simp [dfsStep], ⟨[], by simp [dfsStep], by simp⟩, ?_⟩
    simpa [dfsStep] using hinv
  | cons nb rest ih =>
    intro st u hinv hu hrest hL
    have hnbadj : nb ∈ adj u := hrest.mem (List.mem_cons_self nb rest)
    have hrest' : rest.Sublist (adj u) := List.sublist_of_cons_sublist hrest
    have hnbrest : nb ∉ rest := by
      have : (nb :: rest).Nodup := (hadj u).sublist hrest
      exact (List.nodup_cons.mp this).1
    rw [dfsStep]
    by_cases h1 : st.color nb = Color.gray
    · rw [if_pos h1]
      by_cases hmem : nb ∈ st.path
      · have hfacts := pushCycle_facts adj V st nb u hinv hu hmem
        obtain ⟨hcne, hcsub, hclast, hchead, hcchain⟩ := hfacts
        set c := st.path.drop (st.path.indexOf nb) with hc
        have hpc : pushCycle st nb = { st with cycles := st.cycles ++ [c] } := by
          unfold pushCycle
          rw [if_pos hmem]
        have hnotrot : ∀ c0 ∈ st.cycles, ¬ c0.IsRotated c := by
          intro c0 hc0 hrot
          have hmemiff : ∀ x, x ∈ c0 ↔ x ∈ c := fun x => hrot.perm.mem_iff
          have : c0 = c :=
            sublist_eq_of_mem_iff hinv.order_nodup (hinv.cyc_sub c0 hc0) hcsub hmemiff
          rw [this] at hc0
          exact hL c hc0 hclast nb hchead (List.mem_cons_self nb rest)
        have hinv' : DfsInv adj V { st with cycles := st.cycles ++ [c] } := by
          refine ⟨hinv.order_nodup, hinv.order_colored, hinv.order_mem, hinv.path_sub,
            hinv.path_gray, hinv.path_chain, ?_, ?_, ?_, ?_, ?_⟩
          · intro c0 hc0
            rcases List.mem_append.mp hc0 with h | h
            · exact hinv.cyc_ne c0 h
            · rw [List.mem_singleton.mp h]; exact hcne
          · intro c0 hc0
            rcases List.mem_append.mp hc0 with h | h
            · exact hinv.cyc_sub c0 h
            · rw [List.mem_singleton.mp h]; exact hcsub
          · intro c0 hc0
            rcases List.mem_append.mp hc0 with h | h
            · exact hinv.cyc_chain c0 h
            · rw [List.mem_singleton.mp h]; exact hcchain
          · intro c0 hc0 x hx y hy
            rcases List.mem_append.mp hc0 with h | h
            · exact hinv.cyc_edge c0 h x hx y hy
            · rw [List.mem_singleton.mp h] at hx hy
              rw [hchead] at hx
              rw [hclast] at hy
              cases hx
              cases hy
              exact hnbadj
          · rw [List.pairwise_append]
            exact ⟨hinv.cyc_pairwise, List.pairwise_singleton _ _, by
              intro a ha b hb
              rw [List.mem_singleton.mp hb]
              exact hnotrot a ha⟩
        have hL' : ∀ c0 ∈ ({ st with cycles := st.cycles ++ [c] } : DfsState).cycles,
            c0.getLast? = some u → ∀ x ∈ c0.head?, x ∉ rest := by
          intro c0 hc0 hlast x hx
          rcases List.mem_append.mp hc0 with h | h
          · intro hxr
            exact hL c0 h hlast x hx (List.mem_cons_of_mem nb hxr)
          · rw [List.mem_singleton.mp h] at hx
            rw [hchead] at hx
            cases hx
            exact hnbrest
        rw [hpc]
        obtain ⟨Δ, ho, hw, hcol, hp, ⟨newC, hcyc, hnewlast⟩, hinv''⟩ :=
          ih { st with cycles := st.cycles ++ [c] } u hinv' hu hrest' hL'
        refine ⟨Δ, ho, hw, hcol, hp, ⟨c :: newC, ?_, ?_⟩, hinv''⟩
        · rw [hcyc]
          simp
        · intro c0 hc0 y hy
          rcases List.mem_cons.mp hc0 with h | h
          · subst h
            rw [hclast] at hy
            cases hy
            exact Or.inl rfl
          · exact hnewlast c0 h y hy
      · have hpc : pushCycle st nb = st := by
          unfold pushCycle
          rw [if_neg hmem]
        rw [hpc]
        refine ih st u hinv hu hrest' ?_
        intro c0 hc0 hlast x hx hxr
        exact hL c0 hc0 hlast x hx (List.mem_cons_of_mem nb hxr)
    · rw [if_neg h1]
      by_cases h2 : st.color nb = Color.white
      · rw [if_pos h2]
        obtain ⟨Δv, hvo, hvw, hvcol, hvp, ⟨newCv, hvcyc, hvlast⟩, hinv'⟩ :=
          hv nb st hinv h2 (hadjV u nb hnbadj) (Or.inr ⟨u, hu, hnbadj⟩)
        have hu' : (visit nb st).path.getLast? = some u := by rw [hvp, hu]
        have hugray : st.color u = Color.gray := by
          apply hinv.path_gray
          exact List.mem_of_mem_getLast? (by rw [hu]; rfl)
        have huΔ : u ∉ Δv := fun h => by
          have := hvw u h
          rw [hugray] at this
          cases this
        have hL' : ∀ c0 ∈ (visit nb st).cycles, c0.getLast? = some u →
            ∀ x ∈ c0.head?, x ∉ rest := by
          intro c0 hc0 hlast x hx
          rw [hvcyc] at hc0
          rcases List.mem_append.mp hc0 with h | h
          · intro hxr
            exact hL c0 h hlast x hx (List.mem_cons_of_mem nb hxr)
          · exfalso
            have := hvlast c0 h u (by rw [hlast]; rfl)
            exact huΔ this
        obtain ⟨Δ', ho', hw', hcol', hp', ⟨newC', hcyc', hnewlast'⟩, hinv''⟩ :=
          ih (visit nb st) u hinv' hu' hrest' hL'
        refine ⟨Δv ++ Δ', ?_, ?_, ?_, ?_, ⟨newCv ++ newC', ?_, ?_⟩, hinv''⟩
        · rw [ho', hvo, List.append_assoc]
        · intro n hn
          rcases List.mem_append.mp hn with h | h
          · exact hvw n h
          · have h1 := hw' n h
            rw [hvcol n] at h1
            by_cases hΔ : n ∈ Δv
            · rw [if_pos hΔ] at h1; cases h1
            · rw [if_neg hΔ] at h1; exact h1
        · intro n
          rw [hcol' n, hvcol n]
          by_cases hΔ' : n ∈ Δ'
          · rw [if_pos hΔ', if_pos (List.mem_append.mpr (Or.inr hΔ'))]
          · rw [if_neg hΔ']
            by_cases hΔv : n ∈ Δv
            · rw [if_pos hΔv, if_pos (List.mem_append.mpr (Or.inl hΔv))]
            · rw [if_neg hΔv, if_neg (by
                intro h
                rcases List.mem_append.mp h with h | h
                · exact hΔv h
                · exact hΔ' h)]
        · rw [hp', hvp]
        · rw [hcyc', hvcyc, List.append_assoc]
        · intro c0 hc0 y hy
          rcases List.mem_append.mp hc0 with h | h
          · exact Or.inr (List.mem_append.mpr (Or.inl (hvlast c0 h y hy)))
          · rcases hnewlast' c0 h y hy with h1 | h1
            · exact Or.inl h1
            · exact Or.inr (List.mem_append.mpr (Or.inr h1))
      · rw [if_neg h2]
        refine ih st u hinv hu hrest' ?_
        intro c0 hc0 hlast x hx hxr
        exact hL c0 hc0 hlast x hx (List.mem_cons_of_mem nb hxr)


theorem dfsVisit_spec (hadj : ∀ x, (adj x).Nodup) (hadjV : ∀ x, ∀ y ∈ adj x, y ∈ V) :
    ∀ f : Nat, VisitSpec adj V (fun nb s => dfsVisit adj f nb s) := by
  intro f
  induction f with
  | zero =>
    intro node st hinv _ _ _
    exact ⟨[], by simp [dfsVisit], by simp, by simp [dfsVisit], by simp [dfsVisit],
      ⟨[], by simp [dfsVisit], by simp⟩, by simpa [dfsVisit] using hinv⟩
  | succ f ih =>
    intro node st hinv hwhite hnode hpre
    have hnodeorder : node ∉ st.order := fun h => hinv.order_colored node h hwhite
    have hnodepath : node ∉ st.path := fun h => by
      have := hinv.path_gray node h
      rw [hwhite] at this
      cases this
    set st1 : DfsState :=
      { st with color := Function.update st.color node Color.gray,
                path := st.path ++ [node],
                order := st.order ++ [node] } with hst1
    have hinv1 : DfsInv adj V st1 := by
      refine ⟨?_, ?_, ?_, ?_, ?_, ?_, ?_, ?_, ?_, ?_, ?_⟩
      · rw [List.nodup_append]
        exact ⟨hinv.order_nodup, List.nodup_singleton node, by
          intro a ha hb
          rw [List.mem_singleton.mp hb] at ha
          exact hnodeorder ha⟩
      · intro n hn
        rcases List.mem_append.mp hn with h | h
        · have hne : n ≠ node := fun he => hnodeorder (he ▸ h)
          show Function.update st.color node Color.gray n ≠ Color.white
          rw [Function.update_noteq hne]
          exact hinv.order_colored n h
        · rw [List.mem_singleton.mp h]
          show Function.update st.color node Color.gray node ≠ Color.white
          rw [Function.update_same]
          intro hcc
          cases hcc
      · intro n hn
        rcases List.mem_append.mp hn with h | h
        · exact hinv.order_mem n h
        · rw [List.mem_singleton.mp h]; exact hnode
      · exact hinv.path_sub.append (List.Sublist.refl [node])
      · intro n hn
        rcases List.mem_append.mp hn with h | h
        · have hne : n ≠ node := fun he => hnodepath (he ▸ h)
          show Function.update st.color node Color.gray n = Color.gray
          rw [Function.update_noteq hne]
          exact hinv.path_gray n h
        · rw [List.mem_singleton.mp h]
          show Function.update st.color node Color.gray node = Color.gray
          rw [Function.update_same]
      · rw [List.chain'_append]
        refine ⟨hinv.path_chain, List.chain'_singleton node, ?_⟩
        intro x hx y hy
        rw [List.head?_cons, Option.mem_some_iff] at hy
        subst hy
        rcases hpre with h | ⟨u, hu, hadju⟩
        · rw [h] at hx
          cases hx
        · rw [hu, Option.mem_some_iff] at hx
          subst hx
          exact hadju
      · exact hinv.cyc_ne
      · intro c hc
        exact (hinv.cyc_sub c hc).trans (List.sublist_append_left _ _)
      · exact hinv.cyc_chain
      · exact hinv.cyc_edge
      · exact hinv.cyc_pairwise
    have hu1 : st1.path.getLast? = some node := List.getLast?_concat _
    have hL1 : ∀ c ∈ st1.cycles, c.getLast? = some node →
        ∀ x ∈ c.head?, x ∉ adj node := by
      intro c hc hlast x _
      exfalso
      have hmem : node ∈ c := List.mem_of_mem_getLast? (by rw [hlast]; rfl)
      exact hnodeorder ((hinv.cyc_sub c hc).mem hmem)
    obtain ⟨Δ2, ho2, hw2, hcol2, hp2, ⟨newC2, hcyc2, hlast2⟩, hinv2⟩ :=
      dfsStep_spec adj V hadj hadjV (fun nb s => dfsVisit adj f nb s) ih
        (adj node) st1 node hinv1 hu1 (List.Sublist.refl _) hL1
    set st2 := dfsStep (fun nb s => dfsVisit adj f nb s) (adj node) st1 with hst2
    have hstep : dfsVisit adj (f + 1) node st =
        { st2 with color := Function.update st2.color node Color.black,
                   path := st2.path.dropLast } := rfl
    have hΔw : ∀ n ∈ Δ2, st.color n = Color.white := by
      intro n hn
      have h1 := hw2 n hn
      have hne : n ≠ node := fun he => by
        rw [he] at h1
        rw [show st1.color node = Color.gray from Function.update_same _ _ _] at h1
        cases h1
      rw [show st1.color n = st.color n from Function.update_noteq hne _ _] at h1
      exact h1
    have hnodeΔ2 : node ∉ Δ2 := fun h => by
      have h1 := hw2 node h
      rw [show st1.color node = Color.gray from Function.update_same _ _ _] at h1
      cases h1
    have hfp : st2.path.dropLast = st.path := by
      rw [hp2]
      exact List.dropLast_concat
    have hord : st2.order = st.order ++ node :: Δ2 := by
      rw [ho2]
      show (st.order ++ [node]) ++ Δ2 = st.order ++ node :: Δ2
      rw [List.append_assoc, List.singleton_append]
    have hcycs : st2.cycles = st.cycles ++ newC2 := hcyc2
    refine ⟨node :: Δ2, ?_, ?_, ?_, ?_, ⟨newC2, ?_, ?_⟩, ?_⟩
    · show (dfsVisit adj (f + 1) node st).order = st.order ++ node :: Δ2
      rw [hstep]
      exact hord
    · intro n hn
      rcases List.mem_cons.mp hn with h | h
      · rw [h]; exact hwhite
      · exact hΔw n h
    · intro n
      show Function.update st2.color node Color.black n = _
      by_cases hne : n = node
      · subst hne
        rw [Function.update_same, if_pos (List.mem_cons_self n Δ2)]
      · rw [Function.update_noteq hne, hcol2 n,
          show st1.color n = st.color n from Function.update_noteq hne _ _]
        by_cases hΔ : n ∈ Δ2
        · rw [if_pos hΔ, if_pos (List.mem_cons_of_mem node hΔ)]
        · rw [if_neg hΔ, if_neg (by
            intro h
            rcases List.mem_cons.mp h with h | h
            · exact hne h
            · exact hΔ h)]
    · show (dfsVisit adj (f + 1) node st).path = st.path
      rw [hstep]
      exact hfp
    · show (dfsVisit adj (f + 1) node st).cycles = st.cycles ++ newC2
      rw [hstep]
      exact hcycs
    · intro c hc y hy
      rcases hlast2 c hc y hy with h | h
      · rw [h]; exact List.mem_cons_self node Δ2
      · exact List.mem_cons_of_mem node h
    · refine ⟨?_, ?_, ?_, ?_, ?_, ?_, ?_, ?_, ?_, ?_, ?_⟩
      · exact hinv2.order_nodup
      · intro n hn
        show Function.update st2.color node Color.black n ≠ Color.white
        by_cases hne : n = node
        · subst hne
          rw [Function.update_same]
          intro h
          cases h
        · rw [Function.update_noteq hne]
          exact hinv2.order_colored n hn
      · exact hinv2.order_mem
      · show (st2.path.dropLast).Sublist st2.order
        rw [hfp, hord]
        exact hinv.path_sub.trans (List.sublist_append_left _ _)
      · intro n hn
        rw [show (dfsVisit adj (f + 1) node st).path = st.path from by rw [hstep]; exact hfp] at hn
        show Function.update st2.color node Color.black n = Color.gray
        have hne : n ≠ node := fun he => hnodepath (he ▸ hn)
        have hnΔ : n ∉ Δ2 := fun h => by
          have := hΔw n h
          rw [hinv.path_gray n hn] at this
          cases this
        rw [Function.update_noteq hne, hcol2 n, if_neg hnΔ,
          show st1.color n = st.color n from Function.update_noteq hne _ _]
        exact hinv.path_gray n hn
      · show List.Chain' _ (st2.path.dropLast)
        rw [hfp]
        exact hinv.path_chain
      · exact hinv2.cyc_ne
      · exact hinv2.cyc_sub
      · exact hinv2.cyc_chain
      · exact hinv2.cyc_edge
      · exact hinv2.cyc_pairwise



theorem dfsFold_inv (hadj : ∀ x, (adj x).Nodup) (hadjV : ∀ x, ∀ y ∈ adj x, y ∈ V) (f : Nat) :
    ∀ (roots : List String) (st : DfsState),
      (∀ r ∈ roots, r ∈ V) → DfsInv adj V st → st.path = [] →
      DfsInv adj V (roots.foldl (fun st name =>
        if st.color name = Color.white then dfsVisit adj f name st else st) st) ∧
      (roots.foldl (fun st name =>
        if st.color name = Color.white then dfsVisit adj f name st else st) st).path = [] := by
  intro roots
  induction roots with
  | nil =>
    intro st _ hinv hp
    exact ⟨hinv, hp⟩
  | cons r roots ih =>
    intro st hr hinv hp
    rw [List.foldl_cons]
    by_cases hw : st.color r = Color.white
    · rw [if_pos hw]
      obtain ⟨Δ, _, _, _, hpath, _, hinv'⟩ :=
        dfsVisit_spec adj V hadj hadjV f r st hinv hw (hr r (List.mem_cons_self r roots))
          (Or.inl hp)
      refine ih _ (fun x hx => hr x (List.mem_cons_of_mem r hx)) hinv' ?_
      show (dfsVisit adj f r st).path = []
      rw [show (dfsVisit adj f r st).path = st.path from hpath, hp]
    · rw [if_neg hw]
      exact ih _ (fun x hx => hr x (List.mem_cons_of_mem r hx)) hinv hp

end DfsInvariants

theorem objUpsert_keys_nodup (m : List (String × String)) (k v : String)
    (h : (m.map Prod.fst).Nodup) : ((objUpsert m k v).map Prod.fst).Nodup := by
  unfold objUpsert
  by_cases hany : (m.any (fun e => e.1 == k)) = true
  · rw [if_pos hany]
    have : (m.map (fun e => if e.1 == k then (k, v) else e)).map Prod.fst = m.map Prod.fst := by
      rw [List.map_map]
      apply List.map_congr_left
      intro e _
      by_cases he : (e.1 == k) = true
      · simp only [Function.comp_apply, if_pos he]
        exact (beq_iff_eq.mp he).symm
      · simp only [Function.comp_apply, if_neg he]
    rw [this]
    exact h
  · rw [if_neg hany]
    rw [List.map_append]
    rw [List.nodup_append]
    refine ⟨h, List.nodup_singleton k, ?_⟩
    intro a ha hb
    rw [List.mem_singleton.mp hb] at ha
    obtain ⟨e, he, hek⟩ := List.mem_map.mp ha
    exact hany (List.any_eq_true.mpr ⟨e, he, by simp [hek]⟩)

theorem objEntries_keys_nodup (l : List (String × String)) :
    ((objEntries l).map Prod.fst).Nodup := by
  unfold objEntries
  suffices h : ∀ (m : List (String × String)), (m.map Prod.fst).Nodup →
      ((l.foldl (fun m e => objUpsert m e.1 e.2) m).map Prod.fst).Nodup by
    exact h [] (by simp)
  induction l with
  | nil => intro m hm; exact hm
  | cons e rest ih =>
    intro m hm
    rw [List.foldl_cons]
    exact ih _ (objUpsert_keys_nodup m e.1 e.2 hm)

theorem filterMap_if_keys_nodup (P : String × String → Bool) :
    ∀ (l : List (String × String)), ((l.map Prod.fst).Nodup) →
      (l.filterMap (fun e => if P e then some e.1 else none)).Nodup := by
  have hsub : ∀ (l : List (String × String)) (b : String),
      b ∈ l.filterMap (fun e => if P e then some e.1 else none) → b ∈ l.map Prod.fst := by
    intro l b hb
    obtain ⟨e, he, hfe⟩ := List.mem_filterMap.mp hb
    by_cases hp : P e = true
    · rw [if_pos hp] at hfe
      injection hfe with h
      rw [← h]
      exact List.mem_map_of_mem Prod.fst he
    · rw [if_neg hp] at hfe
      cases hfe
  intro l
  induction l with
  | nil => intro _; simp
  | cons e rest ih =>
    intro h
    rw [List.map_cons, List.nodup_cons] at h
    rw [List.filterMap_cons]
    by_cases hp : P e = true
    · rw [if_pos hp]
      rw [List.nodup_cons]
      exact ⟨fun hmem => h.1 (hsub rest e.1 hmem), ih h.2⟩
    · rw [if_neg hp]
      exact ih h.2

theorem adjOf_nodup (packages : List PackageInfo) (x : String) : (adjOf packages x).Nodup := by
  unfold adjOf
  cases (packages.filter (fun p => p.name == x)).getLast? with
  | none => exact List.nodup_nil
  | some pkg =>
    unfold neighborsOf
    exact filterMap_if_keys_nodup _ _ (objEntries_keys_nodup _)

theorem adjOf_mem_names (packages : List PackageInfo) (x : String) :
    ∀ y ∈ adjOf packages x, y ∈ workspaceNames packages := by
  unfold adjOf
  cases (packages.filter (fun p => p.name == x)).getLast? with
  | none => intro y hy; cases hy
  | some pkg =>
    intro y hy
    unfold neighborsOf at hy
    obtain ⟨e, _, hfe⟩ := List.mem_filterMap.mp hy
    by_cases hc : (strStartsWith e.2 "workspace:" && (workspaceNames packages).contains e.1) = true
    · rw [if_pos hc] at hfe
      injection hfe with h
      rw [← h]
      have := (Bool.and_eq_true_iff.mp hc).2
      simpa using this
    · rw [if_neg hc] at hfe
      cases hfe

theorem dfsInit_inv (adj : String → List String) (V : List String) : DfsInv adj V dfsInit := by
  refine ⟨?_, ?_, ?_, ?_, ?_, ?_, ?_, ?_, ?_, ?_, ?_⟩ <;> simp [dfsInit]

theorem detect_inv (packages : List PackageInfo) :
    DfsInv (adjOf packages) (workspaceNames packages)
      ((workspaceNames packages).foldl
        (fun st name => if st.color name = Color.white
          then dfsVisit (adjOf packages) (workspaceNames packages).length name st else st)
        dfsInit) ∧
    detectInterPackageCycles packages =
      ((workspaceNames packages).foldl
        (fun st name => if st.color name = Color.white
          then dfsVisit (adjOf packages) (workspaceNames packages).length name st else st)
        dfsInit).cycles := by
  constructor
  · exact (dfsFold_inv (adjOf packages) (workspaceNames packages) (adjOf_nodup packages)
      (adjOf_mem_names packages) (workspaceNames packages).length (workspaceNames packages)
      dfsInit (fun r hr => hr) (dfsInit_inv _ _) rfl).1
  · rfl




/-- C10: every cycle returned by the inter-package detector is a genuine
simple cycle of the constructed dependency graph: it is non-empty, its
members are pairwise-distinct package names drawn from the input list,
every consecutive pair is a graph edge, and an edge closes the cycle from
the last member back to the first. -/
theorem detect_cycles_genuine (packages : List PackageInfo) (c : List String)
    (hc : c ∈ detectInterPackageCycles packages) :
    c ≠ [] ∧ c.Nodup ∧ (∀ x ∈ c, x ∈ packages.map PackageInfo.name) ∧
      List.Chain' (fun a b => b ∈ adjOf packages a) c ∧
      (∀ x ∈ c.head?, ∀ y ∈ c.getLast?, x ∈ adjOf packages y) := by
  obtain ⟨hinv, heq⟩ := detect_inv packages
  rw [heq] at hc
  refine ⟨hinv.cyc_ne c hc, ?_, ?_, hinv.cyc_chain c hc, hinv.cyc_edge c hc⟩
  · exact (hinv.cyc_sub c hc).nodup hinv.order_nodup
  · intro x hx
    have hxo := (hinv.cyc_sub c hc).mem hx
    have := hinv.order_mem x hxo
    exact (mem_workspaceNames x packages).mp this

theorem detect_cycles_genuine_witness :
    (["@p/a", "@p/b"] ∈ detectInterPackageCycles wsC1.packages) ∧
    (["@p/a", "@p/b"] ≠ ([] : List String) ∧ (["@p/a", "@p/b"] : List String).Nodup ∧
      (∀ x ∈ (["@p/a", "@p/b"] : List String), x ∈ wsC1.packages.map PackageInfo.name) ∧
      List.Chain' (fun a b => b ∈ adjOf wsC1.packages a) ["@p/a", "@p/b"] ∧
      (∀ x ∈ (["@p/a", "@p/b"] : List String).head?,
        ∀ y ∈ (["@p/a", "@p/b"] : List String).getLast?, x ∈ adjOf wsC1.packages y)) :=
  ⟨by decide, detect_cycles_genuine wsC1.packages ["@p/a", "@p/b"] (by decide)⟩

theorem append_space_eq : ∀ {l1 l2 r1 r2 : List Char}, ' ' ∉ l1 → ' ' ∉ l2 →
    l1 ++ ' ' :: r1 = l2 ++ ' ' :: r2 → l1 = l2 ∧ r1 = r2 := by
  intro l1
  induction l1 with
  | nil =>
    intro l2 r1 r2 _ h2 heq
    cases l2 with
    | nil =>
      simp only [List.nil_append] at heq
      exact ⟨rfl, (List.cons.injEq _ _ _ _ ▸ heq).2⟩
    | cons c t2 =>
      simp only [List.nil_append, List.cons_append] at heq
      have : c = ' ' := (List.cons.injEq _ _ _ _ ▸ heq).1.symm
      exact absurd (this ▸ List.mem_cons_self c t2) h2
  | cons c t1 ih =>
    intro l2 r1 r2 h1 h2 heq
    cases l2 with
    | nil =>
      simp only [List.nil_append, List.cons_append] at heq
      have : c = ' ' := (List.cons.injEq _ _ _ _ ▸ heq).1
      exact absurd (this ▸ List.mem_cons_self c t1) h1
    | cons d t2 =>
      simp only [List.cons_append] at heq
      have hcd : c = d := (List.cons.injEq _ _ _ _ ▸ heq).1
      have htl : t1 ++ ' ' :: r1 = t2 ++ ' ' :: r2 := (List.cons.injEq _ _ _ _ ▸ heq).2
      obtain ⟨e1, e2⟩ := ih (fun h => h1 (List.mem_cons_of_mem c h))
        (fun h => h2 (List.mem_cons_of_mem d h)) htl
      exact ⟨by rw [hcd, e1], e2⟩

theorem joinArrow_data_cons (a : String) (b : String) (t : List String) :
    (joinArrow (a :: b :: t)).data
      = a.data ++ ' ' :: '-' :: '>' :: ' ' :: (joinArrow (b :: t)).data := by
  show (a ++ " -> " ++ joinArrow (b :: t)).data = _
  rw [String.data_append, String.data_append]
  rw [List.append_assoc]
  rfl

theorem joinArrow_inj : ∀ (u v : List String), u ≠ [] → v ≠ [] →
    (∀ s ∈ u, ' ' ∉ s.data) → (∀ s ∈ v, ' ' ∉ s.data) →
    joinArrow u = joinArrow v → u = v := by
  intro u
  induction u with
  | nil => intro v hu; cases hu rfl
  | cons a u ih =>
    intro v _ hv hsu hsv heq
    cases v with
    | nil => cases hv rfl
    | cons b v =>
      cases u with
      | nil =>
        cases v with
        | nil =>
          show [a] = [b]
          rw [show joinArrow [a] = a from rfl, show joinArrow [b] = b from rfl] at heq
          rw [heq]
        | cons b2 t2 =>
          exfalso
          have hd := congrArg String.data heq
          rw [show joinArrow [a] = a from rfl, joinArrow_data_cons] at hd
          have : ' ' ∈ a.data := by
            rw [hd]
            exact List.mem_append_right _ (List.mem_cons_self _ _)
          exact hsu a (List.mem_cons_self a []) this
      | cons a2 t1 =>
        cases v with
        | nil =>
          exfalso
          have hd := congrArg String.data heq
          rw [show joinArrow [b] = b from rfl, joinArrow_data_cons] at hd
          have : ' ' ∈ b.data := by
            rw [← hd]
            exact List.mem_append_right _ (List.mem_cons_self _ _)
          exact hsv b (List.mem_cons_self b []) this
        | cons b2 t2 =>
          have hd := congrArg String.data heq
          rw [joinArrow_data_cons, joinArrow_data_cons] at hd
          obtain ⟨e1, e2⟩ := append_space_eq (hsu a (List.mem_cons_self a _))
            (hsv b (List.mem_cons_self b _)) hd
          have hab : a = b := String.ext e1
          have e3 : (joinArrow (a2 :: t1)).data = (joinArrow (b2 :: t2)).data := by
            simpa using e2
          have htail : a2 :: t1 = b2 :: t2 :=
            ih (b2 :: t2) (by simp) (by simp)
              (fun s hs => hsu s (List.mem_cons_of_mem a hs))
              (fun s hs => hsv s (List.mem_cons_of_mem b hs))
              (String.ext e3)
          rw [hab, htail]

theorem normalizeCycle_rot (c : List String) (hne : c ≠ []) :
    ∃ r : List String, c.IsRotated r ∧ normalizeCycle c = joinArrow r := by
  cases c with
  | nil => cases hne rfl
  | cons a rest =>
    refine ⟨(a :: rest).drop ((a :: rest).indexOf
        (rest.foldl (fun x y => if strLt x y then x else y) a))
      ++ (a :: rest).take ((a :: rest).indexOf
        (rest.foldl (fun x y => if strLt x y then x else y) a)), ?_, rfl⟩
    exact ⟨_, List.rotate_eq_drop_append_take (List.indexOf_le_length)⟩

theorem normalizeCycle_inj_rotated (c1 c2 : List String) (h1 : c1 ≠ []) (h2 : c2 ≠ [])
    (hs1 : ∀ s ∈ c1, ' ' ∉ s.data) (hs2 : ∀ s ∈ c2, ' ' ∉ s.data)
    (heq : normalizeCycle c1 = normalizeCycle c2) : c1.IsRotated c2 := by
  obtain ⟨r1, hr1, he1⟩ := normalizeCycle_rot c1 h1
  obtain ⟨r2, hr2, he2⟩ := normalizeCycle_rot c2 h2
  have hr1ne : r1 ≠ [] := by
    intro h
    rw [h] at hr1
    exact h1 (List.length_eq_zero.mp (by rw [hr1.perm.length_eq]; rfl))
  have hr2ne : r2 ≠ [] := by
    intro h
    rw [h] at hr2
    exact h2 (List.length_eq_zero.mp (by rw [hr2.perm.length_eq]; rfl))
  have hreq : r1 = r2 := by
    apply joinArrow_inj r1 r2 hr1ne hr2ne
    · intro s hs
      exact hs1 s (hr1.perm.mem_iff.mpr hs)
    · intro s hs
      exact hs2 s (hr2.perm.mem_iff.mpr hs)
    · rw [← he1, ← he2, heq]
  exact (hreq ▸ hr1).trans hr2.symm

theorem dedupSpec_eq_self (cs : List (List String))
    (h : List.Pairwise (fun c1 c2 => normalizeCycle c1 ≠ normalizeCycle c2) cs) :
    dedupSpec cs = cs := by
  induction cs with
  | nil => rw [dedupSpec]
  | cons c rest ih =>
    rw [dedupSpec]
    rw [List.pairwise_cons] at h
    have hf : rest.filter (fun c2 => !(normalizeCycle c2 == normalizeCycle c)) = rest := by
      apply List.filter_eq_self.mpr
      intro a ha
      simp only [Bool.not_eq_true', beq_eq_false_iff_ne]
      exact fun he => h.1 a ha he.symm
    rw [hf, ih h.2]

/-- C9 (amended): for workspaces whose package names contain no space
character (true of all real package names; this excludes collisions with
the `" -> "` join separator), the rotation-deduplication pass is the
identity on the raw inter-package cycle stream, so the implemented
pipeline — which passes the detector's cycles straight to the ignore
filter and classifier — is equivalent to the specified pipeline with an
explicit deduplication pass on the inter stream. -/
theorem inter_dedup_noop (packages : List PackageInfo)
    (hsp : ∀ nm ∈ packages.map PackageInfo.name, ' ' ∉ nm.data) :
    deduplicateCycles (detectInterPackageCycles packages)
      = detectInterPackageCycles packages := by
  obtain ⟨hinv, heq⟩ := detect_inv packages
  rw [deduplicateCycles_eq_dedupSpec, heq]
  apply dedupSpec_eq_self
  have hspace : ∀ c ∈ ((workspaceNames packages).foldl
      (fun st name => if st.color name = Color.white
        then dfsVisit (adjOf packages) (workspaceNames packages).length name st else st)
      dfsInit).cycles, ∀ s ∈ c, ' ' ∉ s.data := by
    intro c hc s hs
    have hso := (hinv.cyc_sub c hc).mem hs
    exact hsp s ((mem_workspaceNames s packages).mp (hinv.order_mem s hso))
  refine List.Pairwise.imp_of_mem ?_ hinv.cyc_pairwise
  intro c1 c2 hm1 hm2 hnrot heq2
  exact hnrot (normalizeCycle_inj_rotated c1 c2 (hinv.cyc_ne c1 hm1) (hinv.cyc_ne c2 hm2)
    (hspace c1 hm1) (hspace c2 hm2) heq2)

theorem inter_dedup_noop_witness :
    (∀ nm ∈ wsC1.packages.map PackageInfo.name, ' ' ∉ nm.data) ∧
    deduplicateCycles (detectInterPackageCycles wsC1.packages)
      = detectInterPackageCycles wsC1.packages :=
  ⟨by decide, inter_dedup_noop wsC1.packages (by decide)⟩

/-- C9 (counterexample): on `sepNamed` the detector reports two distinct
cycles but the deduplicator collapses them, so the pipeline with an
explicit inter-stream deduplication pass differs from the implemented
one. -/
theorem inter_dedup_not_noop :
    detectInterPackageCycles sepNamed = [["a -> b"], ["a", "b"]] ∧
    deduplicateCycles (detectInterPackageCycles sepNamed) = [["a -> b"]] ∧
    deduplicateCycles (detectInterPackageCycles sepNamed) ≠ detectInterPackageCycles sepNamed :=
  ⟨by decide, by decide, by decide⟩

end MonorepoCircular
